import Mathlib

/-!
# Verification of `wordpress-api-scraper.py`

A shallow embedding of the single source file `src/wordpress-api-scraper.py`
(class `WordPressAPIScraper`) together with proofs about it.

The embedding models:

* Python/JSON values reaching the scraper (`PyVal`): strings, integers,
  booleans, `None`, and nested dicts. Python dicts are modelled as
  association lists with Python-dict semantics for lookup (`alistGet`),
  and for key assignment `d[k] = v` / `{**a, **b}` merging (`alistInsert`:
  update-in-place when the key exists, append otherwise — Python dicts
  preserve insertion order and keep the position of an updated key).
* `fetch_data`: the pagination loop is a fuel-indexed recursion
  (`fetchLoop`); `none` means the fuel ran out with the loop still
  running, so termination statements are "returns `some` for every
  sufficiently large fuel". The HTTP transport is an oracle
  `api : Nat → FetchResult` giving each page's outcome: `.ok data`
  (2xx with JSON body `data`) or `.err` (a `requests` exception —
  connection failure or `raise_for_status` on a non-2xx status).
  The result records the returned list, the parameters of every request
  issued, and whether the error diagnostic was printed.
* `extract_text_fields`: direct translation, including the
  `str.replace('<p>', '').replace('</p>', '')` stripping (`stripPTags`)
  and the `AttributeError` Python raises when a nested value's
  `rendered` entry exists but is not a string (`.replace` on a
  non-string).
* `save_to_csv`: `csv.DictWriter` with its default
  `extrasaction='raise'` / `restval=''` behaviour (`dictWriterRow`):
  a row containing a key outside `fieldnames` raises `ValueError`;
  a missing key is rendered as the empty string. The written file is
  modelled as the list of its rows (each row a list of cells); the
  directory-creation side effect is out of scope (an external
  collaborator per the design).
-/

/-- A Python value as it appears in the scraper's data flow: a JSON scalar
or a nested object (dict). -/
inductive PyVal where
  | vStr (s : String)
  | vInt (n : Int)
  | vBool (b : Bool)
  | vNone
  | vDict (entries : List (String × PyVal))

/-- A Python dict with `PyVal` values, as an insertion-ordered association
list (Python dicts preserve insertion order; keys are unique). -/
abbrev Dict := List (String × PyVal)

/-- A record returned by the WordPress API (a JSON object). -/
abbrev Record := Dict

/-- A flattened record: a Python dict mapping field names to strings. -/
abbrev StrDict := List (String × String)

/-- Python dict lookup `d.get(k)` / `k in d`: the value at the first
(= only, for genuine dicts) occurrence of the key. -/
def alistGet {α : Type} (k : String) : List (String × α) → Option α
  | [] => Option.none
  | kv :: rest => if kv.1 = k then some kv.2 else alistGet k rest

/-- Python dict assignment `d[k] = v` (also the effect of key `k` during
`{**a, **b}` unpacking): if the key exists its value is updated in place,
otherwise the pair is appended at the end. -/
def alistInsert {α : Type} (d : List (String × α)) (k : String) (v : α) :
    List (String × α) :=
  if d.any (fun kv => kv.1 = k) then
    d.map (fun kv => if kv.1 = k then (k, v) else kv)
  else d ++ [(k, v)]

/-- Python `str(v)` for the scalar values of the model. The `vDict` case is
unreachable from `extract_text_fields` (dict values take the `isinstance`
branch), so its rendering is irrelevant; we use the empty string. -/
def pyStr : PyVal → String
  | .vStr s => s
  | .vInt n => toString n
  | .vBool true => "True"
  | .vBool false => "False"
  | .vNone => "None"
  | .vDict _ => ""

/-- Python `str.replace(pat, repl)` on char lists, all occurrences,
scanning left to right without overlap. The fuel argument makes the
recursion structural; with `fuel ≥ l.length` it never runs out since every
step consumes at least one character. (The guard `0 < pat.length` makes an
empty pattern a no-op; the scraper only uses non-empty patterns.) -/
def replFuel (pat repl : List Char) : Nat → List Char → List Char
  | 0, l => l
  | _ + 1, [] => []
  | fuel + 1, c :: cs =>
    if 0 < pat.length ∧ List.take pat.length (c :: cs) = pat then
      repl ++ replFuel pat repl fuel (List.drop pat.length (c :: cs))
    else
      c :: replFuel pat repl fuel cs

/-- Python `s.replace(pat, repl)`. -/
def pyReplace (s pat repl : String) : String :=
  String.mk (replFuel pat.data repl.data s.data.length s.data)

/-- The stripping applied to rendered fields in `extract_text_fields`
(line 76): `.replace('<p>', '').replace('</p>', '')`. -/
def stripPTags (s : String) : String :=
  pyReplace (pyReplace s "<p>" "") "</p>" ""

/-- A Python exception escaping a modelled operation. -/
inductive PyError where
  | attributeError
  | valueError
deriving DecidableEq

/-- The loop body of `extract_text_fields` (lines 72–79): iterate over
`fields`, mutating the dict `extracted` (here the accumulator `acc`).
For a field present with a dict value, take `item[field].get('rendered',
'')` and strip the paragraph tags — Python raises `AttributeError` if that
value is not a string, since `.replace` is called on it; for any other
present value, store `str(value)`; an absent field is skipped. -/
def extractGo (item : Dict) : StrDict → List String → Except PyError StrDict
  | acc, [] => .ok acc
  | acc, field :: rest =>
    match alistGet field item with
    | some (PyVal.vDict d) =>
      match (alistGet "rendered" d).getD (PyVal.vStr "") with
      | PyVal.vStr s => extractGo item (alistInsert acc field (stripPTags s)) rest
      | _ => .error .attributeError
    | some v => extractGo item (alistInsert acc field (pyStr v)) rest
    | Option.none => extractGo item acc rest

/-- `WordPressAPIScraper.extract_text_fields` (lines 64–79). -/
def extract_text_fields (item : Dict) (fields : List String) :
    Except PyError StrDict :=
  extractGo item [] fields

/-- Outcome of one page request, as seen through
`requests.get` + `response.raise_for_status()` + `response.json()`:
either a JSON array of records, or a `requests.exceptions.RequestException`
(connection error or non-2xx status). -/
inductive FetchResult where
  | ok (data : List Record)
  | err

/-- What a run of `fetch_data` produces: the returned `all_data`, the
query parameters of every page request issued (in order), and whether the
`"Error fetching data"` diagnostic was printed. -/
structure FetchOut where
  data : List Record
  requests : List Dict
  errDiag : Bool

/-- The `request_params` dict built at lines 35–39:
`{'per_page': per_page, 'page': page, **(params or {})}` — the caller's
`params` entries are unpacked last, so they override the two
pagination-control entries on key collision. -/
def requestParams (params : Dict) (perPage : Int) (page : Nat) : Dict :=
  params.foldl (fun d kv => alistInsert d kv.1 kv.2)
    [("per_page", PyVal.vInt perPage), ("page", PyVal.vInt (page : Int))]

/-- The stop test at line 53, `if max_pages and page >= max_pages`:
Python truthiness makes `None` and `0` both skip the test. -/
def maxPagesHit : Option Int → Nat → Bool
  | Option.none, _ => false
  | some m, page => if m = 0 then false else decide (m ≤ (page : Int))

/-- The `while True` loop of `fetch_data` (lines 33–60), indexed by fuel:
`none` means the fuel ran out with the loop still running. Each iteration
issues one request; a transport failure breaks with the diagnostic, an
empty JSON array breaks before appending, otherwise the page's records are
appended and the loop breaks if the `max_pages` cap is hit, else moves to
the next page. -/
def fetchLoop (api : Nat → FetchResult) (params : Dict) (perPage : Int)
    (maxPages : Option Int) :
    Nat → Nat → List Record → List Dict → Option FetchOut
  | 0, _, _, _ => Option.none
  | fuel + 1, page, acc, reqs =>
    let rp := requestParams params perPage page
    match api page with
    | .err => some ⟨acc, reqs ++ [rp], true⟩
    | .ok data =>
      if data.isEmpty then some ⟨acc, reqs ++ [rp], false⟩
      else if maxPagesHit maxPages page then
        some ⟨acc ++ data, reqs ++ [rp], false⟩
      else fetchLoop api params perPage maxPages fuel (page + 1) (acc ++ data)
        (reqs ++ [rp])

/-- `WordPressAPIScraper.fetch_data` (lines 18–62): run the pagination
loop from page 1 with empty accumulator. -/
def fetch_data (api : Nat → FetchResult) (params : Dict) (perPage : Int)
    (maxPages : Option Int) (fuel : Nat) : Option FetchOut :=
  fetchLoop api params perPage maxPages fuel 1 [] []

/-- What a (non-raising) run of `save_to_csv` produces: the written file's
rows (`Option.none` when no file is written) and the printed diagnostic. -/
structure SaveOut where
  file : Option (List (List String))
  message : String

/-- One row as written by `csv.DictWriter` with the default
`extrasaction='raise'` and `restval=''`: a key of the row dict outside
`fieldnames` raises `ValueError`; otherwise each column holds the row's
value at that field, the empty string when the field is missing. -/
def dictWriterRow (fieldnames : List String) (row : StrDict) :
    Except PyError (List String) :=
  if row.all (fun kv => fieldnames.contains kv.1) then
    .ok (fieldnames.map (fun f => (alistGet f row).getD ""))
  else .error .valueError

/-- The list comprehension at line 99: flatten every record (an
`AttributeError` from any record propagates). -/
def extractAll (items : List Record) (fields : List String) :
    Except PyError (List StrDict) :=
  match items with
  | [] => .ok []
  | it :: rest =>
    match extract_text_fields it fields with
    | .error e => .error e
    | .ok r =>
      match extractAll rest fields with
      | .error e => .error e
      | .ok rs => .ok (r :: rs)

/-- `writer.writerows(extracted_data)` at line 104: write the rows in
order; the first offending row raises `ValueError`. -/
def writeRows (fieldnames : List String) :
    List StrDict → Except PyError (List (List String))
  | [] => .ok []
  | r :: rest =>
    match dictWriterRow fieldnames r with
    | .error e => .error e
    | .ok row =>
      match writeRows fieldnames rest with
      | .error e => .error e
      | .ok rows => .ok (row :: rows)

/-- `WordPressAPIScraper.save_to_csv` (lines 81–106). Empty input: print
`"No data to save."` and return without touching the file system.
Otherwise flatten all records, take the header from the first flattened
record's keys, and write header plus one row per record (`writeheader`
then `writerows`). Directory creation (line 95) is an external effect and
not modelled. -/
def save_to_csv (data : List Record) (filename : String)
    (text_fields : List String) : Except PyError SaveOut :=
  if data.isEmpty then .ok ⟨Option.none, "No data to save."⟩
  else
    match extractAll data text_fields with
    | .error e => .error e
    | .ok extracted =>
      let fieldnames := (extracted.headD []).map Prod.fst
      match writeRows fieldnames extracted with
      | .error e => .error e
      | .ok rows =>
        .ok ⟨some (fieldnames :: rows), "Data saved to " ++ filename⟩

/-! ## Specification-side definitions and well-formedness predicates

`specExtractField` restates, field by field and following the
specification's words, what the flattener is claimed to do; it is compared
against the implementation `extract_text_fields` in the theorems below.
The predicates `wfRendered` and `allString` carve out the records on which
the specification's language is meaningful (a `rendered` entry that is not
a string makes "strip the substrings" undefined, and the code raises). -/

/-- Specification: for a nested mapping, "extract its `rendered` entry
(default empty string if absent)". Only meaningful when the entry, if
present, is a string. -/
def renderedOf (d : Dict) : String :=
  match alistGet "rendered" d with
  | some (PyVal.vStr s) => s
  | _ => ""

/-- Specification-side description of one field of the flattener's output:
an absent field produces no entry; a nested-mapping value yields its
`rendered` entry with `<p>` / `</p>` stripped; any other value yields its
string representation. -/
def specExtractField (item : Dict) (field : String) : Option String :=
  match alistGet field item with
  | Option.none => Option.none
  | some (PyVal.vDict d) => some (stripPTags (renderedOf d))
  | some v => some (pyStr v)

/-- A value is well-formed for extraction when, if it is a nested dict,
its `rendered` entry is absent or a string (so `.replace` does not raise). -/
def wfVal : PyVal → Bool
  | PyVal.vDict d =>
    match alistGet "rendered" d with
    | some (PyVal.vStr _) => true
    | some _ => false
    | Option.none => true
  | _ => true

/-- Every nested value of the record has a string-or-absent `rendered`
entry. -/
def wfRendered (item : Dict) : Bool :=
  item.all (fun kv => wfVal kv.2)

/-- Every value of the record is a string (an "already flattened"
record). -/
def allString (item : Dict) : Bool :=
  item.all (fun kv => match kv.2 with | PyVal.vStr _ => true | _ => false)

/-- Re-read a flattened record as a record (all values strings), as when
feeding the flattener's output back to it. -/
def toDict (r : StrDict) : Dict :=
  r.map (fun kv => (kv.1, PyVal.vStr kv.2))

/-! ## Association-list (Python dict) lemmas -/

theorem alistGet_append {α : Type} (k : String) (d e : List (String × α)) :
    alistGet k (d ++ e) =
      match alistGet k d with
      | some v => some v
      | Option.none => alistGet k e := by
  induction d with
  | nil => simp [alistGet]
  | cons kv rest ih =>
    by_cases hk : kv.1 = k
    · simp [alistGet, hk]
    · simp [alistGet, hk, ih]

theorem alistGet_of_not_any {α : Type} {k : String} {d : List (String × α)}
    (h : d.any (fun kv => kv.1 = k) = false) : alistGet k d = Option.none := by
  induction d with
  | nil => rfl
  | cons kv rest ih =>
    simp only [List.any_cons, Bool.or_eq_false_iff] at h
    have hk : ¬ kv.1 = k := by simpa using h.1
    simp [alistGet, hk, ih h.2]

theorem alistGet_update_self {α : Type} {k : String} {d : List (String × α)}
    (v : α) (h : d.any (fun kv => kv.1 = k) = true) :
    alistGet k (d.map (fun kv => if kv.1 = k then (k, v) else kv)) = some v := by
  induction d with
  | nil => simp at h
  | cons kv rest ih =>
    by_cases hk : kv.1 = k
    · simp [alistGet, hk]
    · simp only [List.any_cons] at h
      have h2 : rest.any (fun kv => kv.1 = k) = true := by
        rcases Bool.or_eq_true_iff.mp h with h1 | h1
        · exact absurd (by simpa using h1) hk
        · exact h1
      simp [alistGet, hk, ih h2]

theorem alistGet_update_ne {α : Type} {k k' : String} (hne : k' ≠ k)
    (d : List (String × α)) (v : α) :
    alistGet k' (d.map (fun kv => if kv.1 = k then (k, v) else kv)) =
      alistGet k' d := by
  induction d with
  | nil => rfl
  | cons kv rest ih =>
    by_cases hk : kv.1 = k
    · have : ¬ k = k' := fun h => hne h.symm
      simp [alistGet, hk, this, hne, ih]
    · simp [alistGet, hk, ih]

theorem alistGet_insert_self {α : Type} (d : List (String × α)) (k : String)
    (v : α) : alistGet k (alistInsert d k v) = some v := by
  unfold alistInsert
  split
  · exact alistGet_update_self v (by assumption)
  · rename_i h
    rw [alistGet_append]
    rw [alistGet_of_not_any (Bool.eq_false_iff.mpr h)]
    simp [alistGet]

theorem alistGet_insert_ne {α : Type} {k k' : String} (hne : k' ≠ k)
    (d : List (String × α)) (v : α) :
    alistGet k' (alistInsert d k v) = alistGet k' d := by
  unfold alistInsert
  split
  · exact alistGet_update_ne hne d v
  · rw [alistGet_append]
    cases hd : alistGet k' d with
    | none => simp [alistGet, Ne.symm hne]
    | some w => simp

theorem alistInsert_of_not_mem {α : Type} {k : String}
    {d : List (String × α)} (h : ¬ k ∈ d.map Prod.fst) (v : α) :
    alistInsert d k v = d ++ [(k, v)] := by
  unfold alistInsert
  rw [if_neg]
  intro hany
  rcases List.any_eq_true.mp hany with ⟨kv, hmem, hk⟩
  exact h (List.mem_map.mpr ⟨kv, hmem, by simpa using hk⟩)

theorem alistGet_mem {α : Type} {k : String} {d : List (String × α)} {v : α}
    (h : alistGet k d = some v) : (k, v) ∈ d := by
  induction d with
  | nil => simp [alistGet] at h
  | cons kv rest ih =>
    obtain ⟨a, b⟩ := kv
    by_cases hk : a = k
    · simp only [alistGet, if_pos (show (a, b).1 = k from hk),
        Option.some.injEq] at h
      subst h
      subst hk
      exact List.mem_cons_self _ _
    · simp only [alistGet, if_neg (show ¬ (a, b).1 = k from hk)] at h
      exact List.mem_cons_of_mem _ (ih h)

theorem alistGet_toDict (f : String) (r : StrDict) :
    alistGet f (toDict r) = (alistGet f r).map PyVal.vStr := by
  induction r with
  | nil => rfl
  | cons kv rest ih =>
    by_cases hk : kv.1 = f
    · simp [toDict, alistGet, hk]
    · simp only [toDict, List.map_cons] at ih ⊢
      simp [alistGet, hk, ih]

theorem alistGet_foldl_insert_of_not_mem {α : Type} {k : String}
    (l : List (String × α)) (base : List (String × α))
    (h : ¬ k ∈ l.map Prod.fst) :
    alistGet k (l.foldl (fun d kv => alistInsert d kv.1 kv.2) base) =
      alistGet k base := by
  induction l generalizing base with
  | nil => rfl
  | cons kv rest ih =>
    simp only [List.map_cons, List.mem_cons, not_or] at h
    simp only [List.foldl_cons]
    rw [ih _ h.2, alistGet_insert_ne h.1]

theorem alistGet_isSome_iff {α : Type} (k : String) (d : List (String × α)) :
    (alistGet k d).isSome = true ↔ k ∈ d.map Prod.fst := by
  induction d with
  | nil => simp [alistGet]
  | cons kv rest ih =>
    by_cases hk : kv.1 = k
    · simp [alistGet, hk]
    · simp only [alistGet, if_neg hk, List.map_cons, List.mem_cons]
      rw [ih]
      constructor
      · exact Or.inr
      · rintro (h | h)
        · exact absurd h.symm hk
        · exact h

/-! ## Pagination-loop lemmas -/

/-- The two pagination-control entries of a request when the caller's
`params` contains neither key: they are exactly `per_page` and the current
page number. -/
theorem requestParams_control_keys (params : Dict) (pp : Int) (page : Nat)
    (hpp : ¬ "per_page" ∈ params.map Prod.fst)
    (hpg : ¬ "page" ∈ params.map Prod.fst) :
    alistGet "per_page" (requestParams params pp page) = some (PyVal.vInt pp) ∧
    alistGet "page" (requestParams params pp page) =
      some (PyVal.vInt (page : Int)) := by
  unfold requestParams
  rw [alistGet_foldl_insert_of_not_mem params _ hpp,
    alistGet_foldl_insert_of_not_mem params _ hpg]
  constructor <;> simp [alistGet]

/-- Running the loop across `k` consecutive successful, non-empty,
non-capped pages starting at page `p`: the pages' records and requests
are appended in ascending page order and the loop proceeds to page
`p + k`. -/
theorem fetchLoop_run (api : Nat → FetchResult) (params : Dict) (pp : Int)
    (mp : Option Int) (L : Nat → List Record) (k : Nat) :
    ∀ (p fuel : Nat) (acc : List Record) (reqs : List Dict),
    (∀ i, i < k → api (p + i) = .ok (L (p + i)) ∧ L (p + i) ≠ [] ∧
      maxPagesHit mp (p + i) = false) →
    fetchLoop api params pp mp (k + fuel) p acc reqs =
      fetchLoop api params pp mp fuel (p + k)
        (acc ++ ((List.range' p k).map L).flatten)
        (reqs ++ (List.range' p k).map (requestParams params pp)) := by
  induction k with
  | zero => intro p fuel acc reqs _; simp [List.range']
  | succ k ih =>
    intro p fuel acc reqs h
    obtain ⟨hapi, hne, hmp⟩ := by simpa using h 0 (Nat.succ_pos k)
    have hie : (L p).isEmpty = false := by
      cases hL : L p with
      | nil => exact absurd hL hne
      | cons a l => rfl
    rw [show k + 1 + fuel = (k + fuel) + 1 from by omega]
    simp only [fetchLoop, hapi, hie, hmp, Bool.false_eq_true, if_false]
    have h' : ∀ i, i < k → api (p + 1 + i) = .ok (L (p + 1 + i)) ∧
        L (p + 1 + i) ≠ [] ∧ maxPagesHit mp (p + 1 + i) = false := by
      intro i hi
      have := h (i + 1) (by omega)
      rwa [show p + (i + 1) = p + 1 + i from by omega] at this
    rw [ih (p + 1) fuel (acc ++ L p) (reqs ++ [requestParams params pp p]) h']
    rw [show p + 1 + k = p + (k + 1) from by omega]
    simp [List.range'_succ]

/-- Any terminating run of the loop issues requests for the consecutive
pages starting at the current one, each with the parameters built by
`requestParams`. -/
theorem fetchLoop_requests (api : Nat → FetchResult) (params : Dict)
    (pp : Int) (mp : Option Int) :
    ∀ (fuel page : Nat) (acc : List Record) (reqs : List Dict)
      (out : FetchOut),
    fetchLoop api params pp mp fuel page acc reqs = some out →
    ∃ n, out.requests =
      reqs ++ (List.range' page n).map (requestParams params pp) := by
  intro fuel
  induction fuel with
  | zero => intro page acc reqs out h; simp [fetchLoop] at h
  | succ f ih =>
    intro page acc reqs out h
    cases hapi : api page with
    | err =>
      simp only [fetchLoop, hapi] at h
      obtain rfl : FetchOut.mk acc (reqs ++ [requestParams params pp page])
          true = out := by simpa using h
      exact ⟨1, by simp [List.range']⟩
    | ok data =>
      simp only [fetchLoop, hapi] at h
      by_cases hie : data.isEmpty
      · rw [if_pos hie] at h
        obtain rfl : FetchOut.mk acc (reqs ++ [requestParams params pp page])
            false = out := by simpa using h
        exact ⟨1, by simp [List.range']⟩
      · rw [if_neg hie] at h
        by_cases hmp : maxPagesHit mp page
        · rw [if_pos hmp] at h
          obtain rfl : FetchOut.mk (acc ++ data)
              (reqs ++ [requestParams params pp page]) false = out := by
            simpa using h
          exact ⟨1, by simp [List.range']⟩
        · rw [if_neg hmp] at h
          obtain ⟨n, hn⟩ := ih (page + 1) (acc ++ data)
            (reqs ++ [requestParams params pp page]) out h
          refine ⟨n + 1, ?_⟩
          rw [hn, List.range'_succ]
          simp

/-- With a positive cap `N`, the loop terminates within `N + 1 - page`
further iterations (given that much fuel) and issues at most that many
further requests, whatever the API returns. -/
theorem fetchLoop_bounded (api : Nat → FetchResult) (params : Dict)
    (pp : Int) (N : Nat) (hN : 0 < N) :
    ∀ (fuel page : Nat) (acc : List Record) (reqs : List Dict),
    1 ≤ page → page ≤ N → N + 1 - page ≤ fuel →
    ∃ out,
      fetchLoop api params pp (some (N : Int)) fuel page acc reqs =
        some out ∧
      out.requests.length ≤ reqs.length + (N + 1 - page) := by
  intro fuel
  induction fuel with
  | zero => intro page acc reqs h1 h2 h3; omega
  | succ f ih =>
    intro page acc reqs h1 h2 h3
    cases hapi : api page with
    | err =>
      refine ⟨⟨acc, reqs ++ [requestParams params pp page], true⟩, ?_, ?_⟩
      · simp only [fetchLoop, hapi]
      · simp only [List.length_append, List.length_cons, List.length_nil]
        omega
    | ok data =>
      by_cases hie : data.isEmpty
      · refine ⟨⟨acc, reqs ++ [requestParams params pp page], false⟩, ?_, ?_⟩
        · simp only [fetchLoop, hapi, if_pos hie]
        · simp only [List.length_append, List.length_cons, List.length_nil]
          omega
      · by_cases hmp : maxPagesHit (some (N : Int)) page
        · refine ⟨⟨acc ++ data, reqs ++ [requestParams params pp page],
            false⟩, ?_, ?_⟩
          · simp only [fetchLoop, hapi, if_neg hie, if_pos hmp]
          · simp only [List.length_append, List.length_cons, List.length_nil]
            omega
        · have hlt : page < N := by
            simp only [maxPagesHit] at hmp
            rw [if_neg (show ¬ ((N : Int) = 0) from by
              exact_mod_cast hN.ne')] at hmp
            have : ¬ ((N : Int) ≤ (page : Int)) := by simpa using hmp
            omega
          obtain ⟨out, heq, hlen⟩ := ih (page + 1) (acc ++ data)
            (reqs ++ [requestParams params pp page]) (by omega) (by omega)
            (by omega)
          refine ⟨out, ?_, ?_⟩
          · simp only [fetchLoop, hapi, if_neg hie, if_neg hmp]
            exact heq
          · simp only [List.length_append, List.length_cons,
              List.length_nil] at hlen
            omega

/-- The stop test with `max_pages = 0` is never taken (Python truthiness),
so the loop is the same as with `max_pages = None`. -/
theorem fetchLoop_zero_cap (api : Nat → FetchResult) (params : Dict)
    (pp : Int) :
    ∀ (fuel page : Nat) (acc : List Record) (reqs : List Dict),
    fetchLoop api params pp (some 0) fuel page acc reqs =
      fetchLoop api params pp Option.none fuel page acc reqs := by
  intro fuel
  induction fuel with
  | zero => intro page acc reqs; rfl
  | succ f ih =>
    intro page acc reqs
    have hz : maxPagesHit (some 0) page = maxPagesHit Option.none page := rfl
    simp only [fetchLoop, hz]
    cases api page with
    | err => rfl
    | ok data =>
      by_cases hie : data.isEmpty
      · simp [hie]
      · simp only [hie, Bool.false_eq_true, if_false]
        by_cases hmp : maxPagesHit Option.none page
        · simp [hmp]
        · simp only [hmp, Bool.false_eq_true, if_false]
          exact ih (page + 1) (acc ++ data) _

/-! ## Flattener lemmas -/

/-- On records whose nested values are well-formed, `extractGo` succeeds
and each key of the result reads back as the specification-side value of
the field, fields not selected falling back to the accumulator. -/
theorem extractGo_spec (item : Dict) (hwf : wfRendered item = true) :
    ∀ (tfs : List String) (acc : StrDict),
    ∃ r, extractGo item acc tfs = .ok r ∧
      ∀ f, alistGet f r =
        if f ∈ tfs ∧ (specExtractField item f).isSome then
          specExtractField item f
        else alistGet f acc := by
  intro tfs
  induction tfs with
  | nil =>
    intro acc
    refine ⟨acc, rfl, fun f => ?_⟩
    simp
  | cons f0 rest ih =>
    intro acc
    cases hget : alistGet f0 item with
    | none =>
      obtain ⟨r, hr, hc⟩ := ih acc
      refine ⟨r, ?_, fun f => ?_⟩
      · simpa only [extractGo, hget] using hr
      · rw [hc f]
        by_cases hf : f = f0
        · subst hf
          have hs : specExtractField item f = Option.none := by
            simp [specExtractField, hget]
          simp [hs]
        · simp [hf]
    | some v =>
      have key : ∀ w, specExtractField item f0 = some w →
          extractGo item acc (f0 :: rest) =
            extractGo item (alistInsert acc f0 w) rest →
          ∃ r, extractGo item acc (f0 :: rest) = .ok r ∧
            ∀ f, alistGet f r =
              if f ∈ f0 :: rest ∧ (specExtractField item f).isSome then
                specExtractField item f
              else alistGet f acc := by
        intro w hspec hstep
        obtain ⟨r, hr, hc⟩ := ih (alistInsert acc f0 w)
        refine ⟨r, hstep.trans hr, fun f => ?_⟩
        rw [hc f]
        by_cases hf : f = f0
        · subst hf
          by_cases hmem : f ∈ rest
          · simp [hmem, hspec]
          · simp [hmem, hspec, alistGet_insert_self]
        · rw [alistGet_insert_ne hf]
          have hiff : (f ∈ f0 :: rest) ↔ f ∈ rest := by simp [hf]
          simp only [hiff]
      cases v with
      | vDict d =>
        have hwfd : wfVal (PyVal.vDict d) = true :=
          List.all_eq_true.mp hwf _ (alistGet_mem hget)
        cases hrend : alistGet "rendered" d with
        | none =>
          apply key (stripPTags "")
          · simp [specExtractField, hget, renderedOf, hrend]
          · simp only [extractGo, hget, hrend, Option.getD_none]
        | some rv =>
          cases rv with
          | vStr s =>
            apply key (stripPTags s)
            · simp [specExtractField, hget, renderedOf, hrend]
            · simp only [extractGo, hget, hrend, Option.getD_some]
          | vInt n => simp [wfVal, hrend] at hwfd
          | vBool b => simp [wfVal, hrend] at hwfd
          | vNone => simp [wfVal, hrend] at hwfd
          | vDict d2 => simp [wfVal, hrend] at hwfd
      | vStr s =>
        apply key (pyStr (PyVal.vStr s))
        · simp [specExtractField, hget]
        · simp only [extractGo, hget]
      | vInt n =>
        apply key (pyStr (PyVal.vInt n))
        · simp [specExtractField, hget]
        · simp only [extractGo, hget]
      | vBool b =>
        apply key (pyStr (PyVal.vBool b))
        · simp [specExtractField, hget]
        · simp only [extractGo, hget]
      | vNone =>
        apply key (pyStr PyVal.vNone)
        · simp [specExtractField, hget]
        · simp only [extractGo, hget]

/-- Keys of a successful extraction: with duplicate-free field names whose
keys are fresh for the accumulator, the result's key sequence is the
accumulator's keys followed by the selected fields present in the record,
in selection order. -/
theorem extractGo_keys (item : Dict) :
    ∀ (tfs : List String) (acc r : StrDict),
    tfs.Nodup → (∀ f, f ∈ tfs → ¬ f ∈ acc.map Prod.fst) →
    extractGo item acc tfs = .ok r →
    r.map Prod.fst = acc.map Prod.fst ++
      tfs.filter (fun f => (alistGet f item).isSome) := by
  intro tfs
  induction tfs with
  | nil =>
    intro acc r _ _ h
    obtain rfl : acc = r := by simpa [extractGo] using h
    simp
  | cons f0 rest ih =>
    intro acc r hnd hfresh h
    obtain ⟨hf0, hnd'⟩ := List.nodup_cons.mp hnd
    cases hget : alistGet f0 item with
    | none =>
      simp only [extractGo, hget] at h
      rw [ih acc r hnd' (fun f hf => hfresh f (List.mem_cons_of_mem _ hf)) h]
      simp [List.filter_cons, hget]
    | some v =>
      have hfr : ¬ f0 ∈ acc.map Prod.fst := hfresh f0 (List.mem_cons_self _ _)
      have key : ∀ w, extractGo item (alistInsert acc f0 w) rest = .ok r →
          r.map Prod.fst = acc.map Prod.fst ++
            (f0 :: rest).filter (fun f => (alistGet f item).isSome) := by
        intro w h'
        rw [alistInsert_of_not_mem hfr] at h'
        have hfresh' : ∀ f, f ∈ rest →
            ¬ f ∈ (acc ++ [(f0, w)]).map Prod.fst := by
          intro f hf
          simp only [List.map_append, List.mem_append, List.map_cons,
            List.map_nil, List.mem_cons, List.not_mem_nil, not_or]
          exact ⟨hfresh f (List.mem_cons_of_mem _ hf),
            fun he => hf0 (he ▸ hf), fun he => he.elim⟩
        rw [ih (acc ++ [(f0, w)]) r hnd' hfresh' h']
        simp [List.filter_cons, hget]
      cases v with
      | vDict d =>
        cases hrend : alistGet "rendered" d with
        | none =>
          simp only [extractGo, hget, hrend, Option.getD_none] at h
          exact key (stripPTags "") h
        | some rv =>
          cases rv with
          | vStr s =>
            simp only [extractGo, hget, hrend, Option.getD_some] at h
            exact key (stripPTags s) h
          | vInt n =>
            simp only [extractGo, hget, hrend, Option.getD_some] at h
            exact Except.noConfusion h
          | vBool b =>
            simp only [extractGo, hget, hrend, Option.getD_some] at h
            exact Except.noConfusion h
          | vNone =>
            simp only [extractGo, hget, hrend, Option.getD_some] at h
            exact Except.noConfusion h
          | vDict d2 =>
            simp only [extractGo, hget, hrend, Option.getD_some] at h
            exact Except.noConfusion h
      | vStr s =>
        simp only [extractGo, hget] at h
        exact key _ h
      | vInt n =>
        simp only [extractGo, hget] at h
        exact key _ h
      | vBool b =>
        simp only [extractGo, hget] at h
        exact key _ h
      | vNone =>
        simp only [extractGo, hget] at h
        exact key _ h

/-- The flattening step on one field, seen through the values it can
store: `some s` exactly when the field is present with string value `s`
(only situation arising on all-string records). -/
def stepVal (item : Dict) (f : String) : Option String :=
  match alistGet f item with
  | some (PyVal.vStr s) => some s
  | _ => Option.none

/-- The pure fold the flattener computes on all-string records. -/
def strFold (item : Dict) : StrDict → List String → StrDict
  | acc, [] => acc
  | acc, f :: rest =>
    match alistGet f item with
    | some (PyVal.vStr s) => strFold item (alistInsert acc f s) rest
    | _ => strFold item acc rest

theorem strFold_cons_none (item : Dict) {f0 : String}
    (hsv : stepVal item f0 = Option.none) (acc : StrDict)
    (rest : List String) :
    strFold item acc (f0 :: rest) = strFold item acc rest := by
  unfold stepVal at hsv
  cases hget : alistGet f0 item with
  | none => simp only [strFold, hget]
  | some v =>
    rw [hget] at hsv
    cases v with
    | vStr s => simp at hsv
    | vInt n => simp only [strFold, hget]
    | vBool b => simp only [strFold, hget]
    | vNone => simp only [strFold, hget]
    | vDict d => simp only [strFold, hget]

theorem strFold_cons_some (item : Dict) {f0 : String} {s : String}
    (hsv : stepVal item f0 = some s) (acc : StrDict) (rest : List String) :
    strFold item acc (f0 :: rest) = strFold item (alistInsert acc f0 s) rest := by
  unfold stepVal at hsv
  cases hget : alistGet f0 item with
  | none => rw [hget] at hsv; simp at hsv
  | some v =>
    rw [hget] at hsv
    cases v with
    | vStr s2 =>
      obtain rfl : s2 = s := by simpa using hsv
      simp only [strFold, hget]
    | vInt n => simp at hsv
    | vBool b => simp at hsv
    | vNone => simp at hsv
    | vDict d => simp at hsv

/-- On an all-string record the flattener never raises and computes the
pure fold `strFold`. -/
theorem extractGo_allString (item : Dict) (hs : allString item = true) :
    ∀ (tfs : List String) (acc : StrDict),
    extractGo item acc tfs = .ok (strFold item acc tfs) := by
  intro tfs
  induction tfs with
  | nil => intro acc; rfl
  | cons f0 rest ih =>
    intro acc
    cases hget : alistGet f0 item with
    | none =>
      simp only [extractGo, strFold, hget]
      exact ih acc
    | some v =>
      have hv := List.all_eq_true.mp hs _ (alistGet_mem hget)
      cases v with
      | vStr s =>
        simp only [extractGo, strFold, hget, pyStr]
        exact ih _
      | vInt n => simp at hv
      | vBool b => simp at hv
      | vNone => simp at hv
      | vDict d => simp at hv

/-- The fold only depends on the record through `stepVal` at the selected
fields. -/
theorem strFold_congr (item1 item2 : Dict) :
    ∀ (tfs : List String),
    (∀ f, f ∈ tfs → stepVal item2 f = stepVal item1 f) →
    ∀ acc, strFold item2 acc tfs = strFold item1 acc tfs := by
  intro tfs
  induction tfs with
  | nil => intro _ acc; rfl
  | cons f0 rest ih =>
    intro h acc
    have h0 := h f0 (List.mem_cons_self _ _)
    cases hsv : stepVal item1 f0 with
    | none =>
      rw [strFold_cons_none item1 hsv, strFold_cons_none item2 (h0.trans hsv)]
      exact ih (fun f hf => h f (List.mem_cons_of_mem _ hf)) _
    | some s =>
      rw [strFold_cons_some item1 hsv, strFold_cons_some item2 (h0.trans hsv)]
      exact ih (fun f hf => h f (List.mem_cons_of_mem _ hf)) _

/-- Reading a key out of the fold's result. -/
theorem strFold_get (item : Dict) :
    ∀ (tfs : List String) (acc : StrDict) (f : String),
    alistGet f (strFold item acc tfs) =
      if f ∈ tfs ∧ (stepVal item f).isSome then stepVal item f
      else alistGet f acc := by
  intro tfs
  induction tfs with
  | nil => intro acc f; simp [strFold]
  | cons f0 rest ih =>
    intro acc f
    cases hsv : stepVal item f0 with
    | none =>
      rw [strFold_cons_none item hsv, ih]
      by_cases hf : f = f0
      · subst hf
        simp [hsv]
      · simp [hf]
    | some w =>
      rw [strFold_cons_some item hsv, ih]
      by_cases hf : f = f0
      · subst hf
        by_cases hmem : f ∈ rest
        · simp [hmem, hsv, alistGet_insert_self]
        · simp [hmem, hsv, alistGet_insert_self]
      · rw [alistGet_insert_ne hf]
        have hiff : (f ∈ f0 :: rest) ↔ f ∈ rest := by simp [hf]
        simp only [hiff]

/-- Feeding a flattened record back in: `stepVal` is plain lookup. -/
theorem stepVal_toDict (r : StrDict) (f : String) :
    stepVal (toDict r) f = alistGet f r := by
  unfold stepVal
  rw [alistGet_toDict]
  cases alistGet f r <;> rfl

theorem allString_toDict (r : StrDict) : allString (toDict r) = true := by
  induction r with
  | nil => rfl
  | cons kv rest ih => simpa [allString, toDict] using ih

/-! ## Exporter lemmas -/

/-- `writerows` with `extrasaction='raise'`: succeeds with one row per
record — missing fields as empty cells — exactly when no row has a key
outside `fieldnames`; otherwise `ValueError`. -/
theorem writeRows_eq (fns : List String) :
    ∀ (l : List StrDict),
    writeRows fns l =
      if l.all (fun row => row.all (fun kv => fns.contains kv.1)) then
        .ok (l.map (fun row => fns.map (fun f => (alistGet f row).getD "")))
      else .error PyError.valueError := by
  intro l
  induction l with
  | nil => simp [writeRows]
  | cons r rest ih =>
    by_cases hr : r.all (fun kv => fns.contains kv.1)
    · simp only [writeRows, dictWriterRow, if_pos hr, ih]
      by_cases hrest : rest.all (fun row => row.all (fun kv => fns.contains kv.1))
      · rw [if_pos hrest, if_pos (show _ from by
          rw [List.all_cons, Bool.and_eq_true]
          exact ⟨hr, hrest⟩)]
        rfl
      · rw [if_neg hrest, if_neg (show _ from by
          intro hc
          rw [List.all_cons, Bool.and_eq_true] at hc
          exact hrest hc.2)]
    · simp only [writeRows, dictWriterRow, if_neg hr]
      rw [if_neg (show _ from by
        intro hc
        rw [List.all_cons, Bool.and_eq_true] at hc
        exact hr hc.1)]

/-- The cap test is false on every page strictly below a positive cap. -/
theorem maxPagesHit_false_of_lt {m : Int} {p : Nat} (h : (p : Int) < m) :
    maxPagesHit (some m) p = false := by
  simp only [maxPagesHit]
  split
  · rfl
  · simp only [decide_eq_false_iff_not]
    omega

/-! ## The claims -/

/-- Claim C1, counterexample. The claim says no value in `query_parameters`
overrides the pagination-control parameters. But `params` is unpacked
*after* `per_page` and `page` in the `request_params` dict literal, so a
caller-supplied `page` wins: with `params = {'page': 99}` the single
request issued for page 1 carries `page = 99`, not `page = 1`. -/
theorem fetch_query_params_override_page :
    fetch_data (fun _ => FetchResult.err) [("page", PyVal.vInt 99)] 100
        Option.none 1 =
      some ⟨[], [[("per_page", PyVal.vInt 100), ("page", PyVal.vInt 99)]],
        true⟩ ∧
    alistGet "page" [("per_page", PyVal.vInt 100), ("page", PyVal.vInt 99)] ≠
      some (PyVal.vInt 1) := by
  exact ⟨rfl, by simp [alistGet]⟩

/-- Claim C1 (amended): entries of `query_parameters` *do* override the
pagination-control entries of the same name; whenever `query_parameters`
contains neither `per_page` nor `page` as a key, every issued page request
carries `per_page = page_size` and `page` = the current page number
unchanged. -/
theorem fetch_pagination_params_intact (api : Nat → FetchResult)
    (params : Dict) (pp : Int) (mp : Option Int) (fuel : Nat)
    (out : FetchOut) (hout : fetch_data api params pp mp fuel = some out)
    (hpp : ¬ "per_page" ∈ params.map Prod.fst)
    (hpg : ¬ "page" ∈ params.map Prod.fst) :
    ∀ i (hi : i < out.requests.length),
      alistGet "per_page" (out.requests.get ⟨i, hi⟩) =
        some (PyVal.vInt pp) ∧
      alistGet "page" (out.requests.get ⟨i, hi⟩) =
        some (PyVal.vInt ((i + 1 : Nat) : Int)) := by
  obtain ⟨n, hreq⟩ := fetchLoop_requests api params pp mp fuel 1 [] [] out hout
  rw [List.nil_append] at hreq
  intro i hi
  have hget : out.requests.get ⟨i, hi⟩ = requestParams params pp (1 + i) := by
    rw [List.get_eq_getElem]
    simp only [hreq, List.getElem_map, List.getElem_range'_1]
  obtain ⟨h1, h2⟩ := requestParams_control_keys params pp (1 + i) hpp hpg
  rw [hget, h1, h2]
  exact ⟨rfl, by rw [Nat.add_comm]⟩

/-- Witness for the amended C1: a call with `params = {'categories': 5}`
(no pagination keys) issues its first request with `per_page = 50` and
`page = 1`. -/
theorem fetch_pagination_params_intact_witness :
    alistGet "per_page" (requestParams [("categories", PyVal.vInt 5)] 50 1) =
      some (PyVal.vInt 50) ∧
    alistGet "page" (requestParams [("categories", PyVal.vInt 5)] 50 1) =
      some (PyVal.vInt 1) := by
  have h := fetch_pagination_params_intact (fun _ => FetchResult.err)
    [("categories", PyVal.vInt 5)] 50 Option.none 1
    ⟨[], [requestParams [("categories", PyVal.vInt 5)] 50 1], true⟩ rfl
    (by simp) (by simp) 0 (by simp)
  simpa using h

/-- Claim C3: if the transport fails on page `k` after pages `1..k-1`
succeeded with records (and the cap did not stop the loop earlier), the
loop stops at page `k`, no exception escapes (the function still returns a
value), the error diagnostic is printed, and exactly the records
accumulated from pages `1..k-1` are returned, in page order. -/
theorem fetch_transport_failure_returns_partial (api : Nat → FetchResult)
    (params : Dict) (pp : Int) (mp : Option Int) (L : Nat → List Record)
    (k : Nat) (hk : 1 ≤ k)
    (hok : ∀ p, 1 ≤ p → p < k →
      api p = .ok (L p) ∧ L p ≠ [] ∧ maxPagesHit mp p = false)
    (herr : api k = .err) (fuel : Nat) (hfuel : k ≤ fuel) :
    fetch_data api params pp mp fuel =
      some ⟨((List.range' 1 (k - 1)).map L).flatten,
            (List.range' 1 k).map (requestParams params pp), true⟩ := by
  obtain ⟨j, rfl⟩ : ∃ j, k = j + 1 := ⟨k - 1, by omega⟩
  obtain ⟨f, rfl⟩ : ∃ f, fuel = j + (f + 1) := ⟨fuel - (j + 1), by omega⟩
  unfold fetch_data
  rw [fetchLoop_run api params pp mp L j 1 (f + 1) [] []
    (fun i hi => by
      have := hok (1 + i) (by omega) (by omega)
      exact this)]
  rw [show 1 + j = j + 1 from by omega]
  simp only [fetchLoop, herr, List.nil_append]
  rw [show j + 1 - 1 = j from by omega, List.range'_concat]
  rw [show 1 + 1 * j = j + 1 from by omega]
  simp [List.map_append]

/-- Witness for C3: page 1 delivers one record, page 2 fails; the run
returns that record, issues exactly two requests and prints the
diagnostic. -/
theorem fetch_transport_failure_returns_partial_witness :
    fetch_data
      (fun p => if p = 1 then FetchResult.ok [[("id", PyVal.vInt 1)]]
        else FetchResult.err) [] 100 Option.none 5 =
      some ⟨[[("id", PyVal.vInt 1)]],
        [requestParams [] 100 1, requestParams [] 100 2], true⟩ := by
  have h := fetch_transport_failure_returns_partial
    (fun p => if p = 1 then FetchResult.ok [[("id", PyVal.vInt 1)]]
      else FetchResult.err)
    [] 100 Option.none
    (fun p => if p = 1 then [[("id", PyVal.vInt 1)]] else [])
    2 (by omega)
    (fun p h1 h2 => by
      obtain rfl : p = 1 := by omega
      exact ⟨rfl, by simp, rfl⟩)
    rfl 5 (by omega)
  exact h.trans (by rfl)

/-- Claim C4: when the API returns non-empty pages `1..k-1` and an empty
array on page `k` (the cap unset or at least `k`), the run returns exactly
the concatenation of pages `1..k-1` in ascending page order, the empty
page contributes nothing, no diagnostic is printed, and exactly `k`
requests are issued — none for page `k + 1`. -/
theorem fetch_empty_page_stops (api : Nat → FetchResult) (params : Dict)
    (pp : Int) (mp : Option Int) (L : Nat → List Record) (k : Nat)
    (hk : 1 ≤ k)
    (hmp : mp = Option.none ∨ ∃ m, mp = some m ∧ (k : Int) ≤ m)
    (hok : ∀ p, 1 ≤ p → p < k → api p = .ok (L p) ∧ L p ≠ [])
    (hempty : api k = .ok []) (fuel : Nat) (hfuel : k ≤ fuel) :
    fetch_data api params pp mp fuel =
      some ⟨((List.range' 1 (k - 1)).map L).flatten,
            (List.range' 1 k).map (requestParams params pp), false⟩ := by
  have hcap : ∀ p, p < k → maxPagesHit mp p = false := by
    intro p hp
    rcases hmp with rfl | ⟨m, rfl, hm⟩
    · rfl
    · exact maxPagesHit_false_of_lt (by omega)
  obtain ⟨j, rfl⟩ : ∃ j, k = j + 1 := ⟨k - 1, by omega⟩
  obtain ⟨f, rfl⟩ : ∃ f, fuel = j + (f + 1) := ⟨fuel - (j + 1), by omega⟩
  unfold fetch_data
  rw [fetchLoop_run api params pp mp L j 1 (f + 1) [] []
    (fun i hi => by
      obtain ⟨ha, hb⟩ := hok (1 + i) (by omega) (by omega)
      exact ⟨ha, hb, hcap (1 + i) (by omega)⟩)]
  rw [show 1 + j = j + 1 from by omega]
  simp only [fetchLoop, hempty, List.isEmpty_nil, if_true]
  rw [show j + 1 - 1 = j from by omega, List.range'_concat]
  rw [show 1 + 1 * j = j + 1 from by omega]
  simp [List.map_append]

/-- Witness for C4: pages 1 and 2 deliver one record each, page 3 is
empty; the run returns the two records and issues exactly three
requests. -/
theorem fetch_empty_page_stops_witness :
    fetch_data
      (fun p => if p ≤ 2 then FetchResult.ok [[("id", PyVal.vInt (p : Int))]]
        else FetchResult.ok []) [] 100 (some 5) 9 =
      some ⟨[[("id", PyVal.vInt 1)], [("id", PyVal.vInt 2)]],
        [requestParams [] 100 1, requestParams [] 100 2,
          requestParams [] 100 3], false⟩ := by
  have h := fetch_empty_page_stops
    (fun p => if p ≤ 2 then FetchResult.ok [[("id", PyVal.vInt (p : Int))]]
      else FetchResult.ok [])
    [] 100 (some 5)
    (fun p => if p ≤ 2 then [[("id", PyVal.vInt (p : Int))]] else [])
    3 (by omega)
    (Or.inr ⟨5, rfl, by omega⟩)
    (fun p h1 h2 => by
      interval_cases p
      · exact ⟨rfl, by simp⟩
      · exact ⟨rfl, by simp⟩)
    rfl 9 (by omega)
  exact h.trans (by rfl)

/-- Claim C5: with a positive `max_pages = N` and enough fuel, `fetch_data`
terminates (the loop runs at most `N` iterations) and issues at most `N`
page requests, whatever the API responds. -/
theorem fetch_max_pages_bounds_requests (api : Nat → FetchResult)
    (params : Dict) (pp : Int) (N : Nat) (hN : 0 < N) (fuel : Nat)
    (hfuel : N ≤ fuel) :
    ∃ out, fetch_data api params pp (some (N : Int)) fuel = some out ∧
      out.requests.length ≤ N := by
  obtain ⟨out, h1, h2⟩ := fetchLoop_bounded api params pp N hN fuel 1 [] []
    (le_refl 1) hN (by omega)
  refine ⟨out, h1, ?_⟩
  simp only [List.length_nil] at h2
  omega

/-- Witness for C5: an API that always returns a record, capped at
`max_pages = 2` with fuel 2: the loop still terminates and issues at most
two requests. -/
theorem fetch_max_pages_bounds_requests_witness :
    ∃ out, fetch_data
        (fun p => FetchResult.ok [[("id", PyVal.vInt (p : Int))]]) [] 100
        (some ((2 : Nat) : Int)) 2 = some out ∧
      out.requests.length ≤ 2 :=
  fetch_max_pages_bounds_requests _ [] 100 2 (by omega) 2 (by omega)

/-- Claim C9: `max_pages = 0` is falsy in the `max_pages and page >=
max_pages` test, so a run with `max_pages = 0` is literally identical to a
run with `max_pages` unset — unbounded pagination, stopping only on an
empty page or a transport failure. -/
theorem fetch_zero_max_pages_like_unset (api : Nat → FetchResult)
    (params : Dict) (pp : Int) (fuel : Nat) :
    fetch_data api params pp (some 0) fuel =
      fetch_data api params pp Option.none fuel :=
  fetchLoop_zero_cap api params pp fuel 1 [] []

/-- Claim C6: on any record whose nested values carry a string-or-absent
`rendered` entry (the only case in which the claim's wording is defined —
otherwise the code raises `AttributeError`), extraction succeeds and maps
every requested field exactly as the specification describes: a
nested-mapping value to its `rendered` entry (defaulting to the empty
string) with all literal `<p>` / `</p>` occurrences removed, any other
present value to its string representation, and an absent field to no
entry at all. -/
theorem extract_text_fields_matches_spec (item : Dict)
    (fields : List String) (hwf : wfRendered item = true) :
    ∃ r, extract_text_fields item fields = .ok r ∧
      ∀ f, f ∈ fields → alistGet f r = specExtractField item f := by
  obtain ⟨r, hr, hc⟩ := extractGo_spec item hwf fields []
  refine ⟨r, hr, fun f hf => ?_⟩
  rw [hc f]
  cases hspec : specExtractField item f with
  | none => simp [hspec, alistGet]
  | some w => simp [hf, hspec]

/-- Witness for C6: `{'content': {'rendered': '<p>Hello</p><p>World</p>'}}`
flattens `content` to `'HelloWorld'` — every occurrence of both tags is
removed. -/
theorem extract_text_fields_matches_spec_witness :
    ∃ r, extract_text_fields
        [("content", PyVal.vDict
          [("rendered", PyVal.vStr "<p>Hello</p><p>World</p>")])]
        ["content"] = .ok r ∧
      alistGet "content" r = some "HelloWorld" := by
  obtain ⟨r, hr, hc⟩ := extract_text_fields_matches_spec
    [("content", PyVal.vDict
      [("rendered", PyVal.vStr "<p>Hello</p><p>World</p>")])]
    ["content"] rfl
  refine ⟨r, hr, ?_⟩
  rw [hc "content" (by simp)]
  rfl

/-- Claim C7: flattening is idempotent on all-string records — extracting
from a record whose values are all strings succeeds, and re-extracting
from the (re-read) output with the same field names returns the same
mapping. -/
theorem extract_text_fields_idempotent (item : Dict) (fields : List String)
    (hs : allString item = true) :
    ∃ r, extract_text_fields item fields = .ok r ∧
      extract_text_fields (toDict r) fields = .ok r := by
  refine ⟨strFold item [] fields, extractGo_allString item hs fields [], ?_⟩
  have h2 := extractGo_allString (toDict (strFold item [] fields))
    (allString_toDict _) fields []
  have h3 : strFold (toDict (strFold item [] fields)) [] fields =
      strFold item [] fields := by
    apply strFold_congr
    · intro f hf
      rw [stepVal_toDict, strFold_get]
      cases hq : stepVal item f with
      | some w => simp [hf, hq]
      | none => simp [hq, alistGet]
  exact h2.trans (congrArg Except.ok h3)

/-- Witness for C7: re-flattening the flattening of
`{'title': 'A'}` with the same fields gives the same mapping. -/
theorem extract_text_fields_idempotent_witness :
    ∃ r, extract_text_fields [("title", PyVal.vStr "A")] ["title"] =
        .ok r ∧
      extract_text_fields (toDict r) ["title"] = .ok r :=
  extract_text_fields_idempotent [("title", PyVal.vStr "A")] ["title"] rfl

/-- Claim C10, counterexample. The claim fails for field-name lists with a
repeated name: `extracted` is a Python dict, so a field requested twice
yields a single key. With record `{'title': 'A'}` and fields
`['title', 'title']` the output key sequence is `['title']`, but the
subsequence of the field-name list consisting of the present fields is
`['title', 'title']`. -/
theorem extract_keys_duplicate_fields_cex :
    extract_text_fields [("title", PyVal.vStr "A")] ["title", "title"] =
      .ok [("title", "A")] ∧
    (["title", "title"].filter
      (fun f => (alistGet f [("title", PyVal.vStr "A")]).isSome)) =
      ["title", "title"] ∧
    ([("title", "A")] : StrDict).map Prod.fst ≠ ["title", "title"] := by
  refine ⟨rfl, rfl, by simp⟩

/-- Claim C10 (amended): for every record and every *duplicate-free*
field-name list, the key sequence of the output is exactly the subsequence
of the field-name list consisting of the fields present in the record, in
the order of the field-name list. -/
theorem extract_text_fields_keys_ordered (item : Dict)
    (fields : List String) (hnd : fields.Nodup) (r : StrDict)
    (hr : extract_text_fields item fields = .ok r) :
    r.map Prod.fst = fields.filter (fun f => (alistGet f item).isSome) := by
  have h := extractGo_keys item fields [] r hnd (fun f _ => by simp) hr
  simpa using h

/-- Witness for C10 (amended): requesting `['title', 'nope']` from
`{'title': 'A'}` yields exactly the key sequence `['title']`. -/
theorem extract_text_fields_keys_ordered_witness :
    ([("title", "A")] : StrDict).map Prod.fst =
      ["title", "nope"].filter
        (fun f => (alistGet f [("title", PyVal.vStr "A")]).isSome) :=
  extract_text_fields_keys_ordered [("title", PyVal.vStr "A")]
    ["title", "nope"] (by decide) [("title", "A")] rfl

/-- Claim C2, counterexample. The claim says extra keys in a later
flattened record are silently dropped and the write still succeeds. But
`csv.DictWriter` defaults to `extrasaction='raise'`: with records
`[{'title': 'A'}, {'title': 'B', 'content': 'C'}]` and fields
`['title', 'content']`, the header is `['title']` (first record's keys)
and the second row's extra `content` key makes `writerows` raise
`ValueError` — the write does not succeed. -/
theorem save_to_csv_extra_keys_cex :
    save_to_csv [[("title", PyVal.vStr "A")],
        [("title", PyVal.vStr "B"), ("content", PyVal.vStr "C")]]
      "out.csv" ["title", "content"] = .error PyError.valueError := rfl

/-- Claim C2 (amended): for a non-empty record list whose flattening
succeeds, if every later flattened record's keys stay inside the first
flattened record's key set the write succeeds, with header-keys missing
from a row rendered as empty cells; but if any row carries a key outside
the header, `save_to_csv` raises `ValueError` (no silent dropping). -/
theorem save_to_csv_header_discipline (d : Record) (ds : List Record)
    (filename : String) (tfs : List String) (r1 : StrDict)
    (rs : List StrDict) (hex : extractAll (d :: ds) tfs = .ok (r1 :: rs)) :
    save_to_csv (d :: ds) filename tfs =
      if (r1 :: rs).all (fun row => row.all (fun kv =>
          (r1.map Prod.fst).contains kv.1)) then
        .ok ⟨some ((r1.map Prod.fst) ::
          (r1 :: rs).map (fun row => (r1.map Prod.fst).map
            (fun f => (alistGet f row).getD ""))),
          "Data saved to " ++ filename⟩
      else .error PyError.valueError := by
  unfold save_to_csv
  rw [if_neg (by simp)]
  simp only [hex, List.headD_cons]
  rw [writeRows_eq]
  by_cases hC : (r1 :: rs).all (fun row => row.all (fun kv =>
      (r1.map Prod.fst).contains kv.1))
  · rw [if_pos hC, if_pos hC]
  · rw [if_neg hC, if_neg hC]

/-- Witness for the amended C2: `[{'title': 'A', 'content': 'B'},
{'title': 'C'}]` exports with header `title,content`, the second row
rendering the missing `content` as an empty cell. -/
theorem save_to_csv_header_discipline_witness :
    save_to_csv [[("title", PyVal.vStr "A"), ("content", PyVal.vStr "B")],
        [("title", PyVal.vStr "C")]] "o.csv" ["title", "content"] =
      .ok ⟨some [["title", "content"], ["A", "B"], ["C", ""]],
        "Data saved to o.csv"⟩ := by
  have h := save_to_csv_header_discipline
    [("title", PyVal.vStr "A"), ("content", PyVal.vStr "B")]
    [[("title", PyVal.vStr "C")]] "o.csv" ["title", "content"]
    [("title", "A"), ("content", "B")] [[("title", "C")]] rfl
  exact h.trans (by rfl)

/-- Claim C8: saving an empty record list writes no file, raises nothing,
and prints the `"No data to save."` diagnostic — a benign no-op. -/
theorem save_to_csv_empty_noop (filename : String)
    (text_fields : List String) :
    save_to_csv [] filename text_fields =
      .ok ⟨Option.none, "No data to save."⟩ := rfl
